import Mathlib

/-!
# Verification of the porter bundler core

Shallow embedding of `src/packages/porter/src/bundle.js` (the `Bundle`
class: traversal, `obtain`, `reload`, `create` and the output getters),
of the `?main` response assembly of the legacy middleware
(`src/unnamed/part_003`: `formatMain` / `readComponent`), and — since the
`matchRequire` source is not part of the sources, only its test — a
spec-modelled dependency matcher.

External collaborators (node's `crypto`, the `source-map` library, the
transpiler, `parseLoader`) are represented as parameters or as data
carried by the embedded state, mirroring the narrow interfaces the code
consumes them through.
-/

namespace Porter

/-- `\w` of a JS regex: `[A-Za-z0-9_]` (ASCII). -/
def isWordChar (c : Char) : Bool :=
  ('a' ≤ c && c ≤ 'z') || ('A' ≤ c && c ≤ 'Z') || ('0' ≤ c && c ≤ '9') || c = '_'

/-- `path.extname` (posix): the suffix of the basename starting at its last
dot, empty when the basename has no dot or starts with its only dot. -/
def extname (file : String) : String :=
  let rb := file.data.reverse.takeWhile (· ≠ '/')
  if rb.contains '.' then
    let pre := rb.takeWhile (· ≠ '.')
    if pre.length + 1 < rb.length then String.mk ('.' :: pre.reverse) else ""
  else ""

/-- `str.replace(rExt, repl)` for `rExt = /(\.\w+)?$/` (bundle.js line 17):
the first match of the regex is the trailing `.\w+` extension when there is
one (the last dot followed by nonempty word characters up to the end),
otherwise the empty match at the end of the string; it is replaced by
`repl`. -/
def replaceRExt (s repl : String) : String :=
  let rev := s.data.reverse
  let pre := rev.takeWhile (fun c => isWordChar c)
  if pre ≠ [] ∧ rev.get? pre.length = some '.' then
    String.mk ((rev.drop (pre.length + 1)).reverse) ++ repl
  else
    s ++ repl

/-- `id.replace(RE_EXT, '')` for `RE_EXT = /(\.\w+)$/i` (part_003): strips
the trailing extension when present, otherwise leaves the string alone. -/
def stripExt (s : String) : String :=
  let rev := s.data.reverse
  let pre := rev.takeWhile (fun c => isWordChar c)
  if pre ≠ [] ∧ rev.get? pre.length = some '.' then
    String.mk ((rev.drop (pre.length + 1)).reverse)
  else
    s

/-- `JSON.stringify` of one string value. -/
def jsonEscape (s : String) : String :=
  String.join (s.data.map fun c =>
    if c = '"' then "\\\""
    else if c = '\\' then "\\\\"
    else if c = '\n' then "\\n"
    else if c = '\r' then "\\r"
    else if c = '\t' then "\\t"
    else String.mk [c])

def jsonString (s : String) : String := "\"" ++ jsonEscape s ++ "\""

/-- `path.join` (posix), at the precision the claims need: empty segments
are dropped and the rest are joined with `/`. -/
def pathJoin (segments : List String) : String :=
  String.intercalate "/" (segments.filter (fun s => ¬ s.isEmpty))

/-! ## The module graph (data of `Module` consumed by `Bundle`) -/

/-- One module of the graph, with exactly the attributes `bundle.js` reads.
`children` holds graph indices (the JS code holds object references);
`packetIsolated` stands for `mod.packet.isolated`, `code`/`minCode` for the
results of the external `mod.obtain()`/`mod.minify()`, `lockJson` for
`JSON.stringify(mod.lock)`, and `isModule` is the `instanceof Module` test
(false for the placeholder objects a `FakePacket` puts into `files`). -/
structure Module where
  id : String
  file : String
  children : List Nat
  packetId : Nat
  packetIsolated : Bool
  preloaded : Bool
  isPreload : Bool
  fake : Bool
  isWorker : Bool
  isolated : Bool
  isRootEntry : Bool
  isModule : Bool
  code : String
  minCode : String
  lockJson : String
  deriving DecidableEq, Repr

abbrev Graph := List Module

inductive Format | js | css | wasm
  deriving DecidableEq, Repr

/-- `extMap` of bundle.js lines 11-15. -/
def extMap : Format → List String
  | .js => [".js", ".jsx", ".ts", ".tsx", ".json"]
  | .wasm => [".wasm"]
  | .css => [".css", ".less"]

def Format.ext : Format → String
  | .js => ".js"
  | .css => ".css"
  | .wasm => ".wasm"

inductive Scope | module | packet | all
  deriving DecidableEq, Repr

/-- The bundle attributes the iterator destructures (`entries`, `packet`,
`scope`, `format` — line 104). `packetId`/`packetIsolated` stand for the
owning packet. -/
structure IterCfg where
  format : Format
  packetId : Nat
  packetIsolated : Bool
  scope : Scope
  deriving DecidableEq, Repr

/-- The `continue` guards of `iterate` (bundle.js lines 110-118) except the
`done` check, which the traversal handles itself. -/
def skipChild (cfg : IterCfg) (preload : Bool) (m : Module) : Bool :=
  (cfg.format = Format.js &&
    ((m.packetId ≠ cfg.packetId && cfg.scope ≠ Scope.all) ||
     (m.preloaded && !preload && !cfg.packetIsolated) ||
     (m.packetId ≠ cfg.packetId && m.packetIsolated)))
  || m.isolated

/-- `function* iterate(entry, preload)` (bundle.js lines 108-121): walk the
`children` list, skipping modules already in `done` and modules hitting one
of the guards, and descend into the rest through `step` (the
`iterateEntry` at the next fuel level). Yields are returned as a list,
`done` is threaded. -/
def iterChildren (g : Graph) (cfg : IterCfg) (preload : Bool)
    (step : Module → List String → Option (List Module × List String)) :
    List Nat → List String → Option (List Module × List String)
  | [], done => some ([], done)
  | ci :: rest, done =>
    match g.get? ci with
    | none => iterChildren g cfg preload step rest done
    | some m =>
      if done.contains m.id then iterChildren g cfg preload step rest done
      else if skipChild cfg preload m then iterChildren g cfg preload step rest done
      else
        match step m done with
        | none => none
        | some (out₁, done₁) =>
          match iterChildren g cfg preload step rest done₁ with
          | none => none
          | some (out₂, done₂) => some (out₁ ++ out₂, done₂)

/-- `function* iterateEntry(entry, preload)` (bundle.js lines 123-129):
record the entry in `done`, walk its children, yield the entry itself when
its file extension belongs to the format, and for `.js` walk the children a
second time. `fuel` bounds the recursion depth; the JS generator recurses
without fuel, and `iterateEntry_isSome` below shows the bound
`|ids| + 1` always suffices. -/
def iterateEntry (g : Graph) (cfg : IterCfg) (preload : Bool) :
    Nat → Module → List String → Option (List Module × List String)
  | 0, _, _ => none
  | fuel+1, e, done =>
    let done₁ := e.id :: done
    match iterChildren g cfg preload (iterateEntry g cfg preload fuel) e.children done₁ with
    | none => none
    | some (out₁, done₂) =>
      let self := if (extMap cfg.format).contains (extname e.file) then [e] else []
      if cfg.format = Format.js then
        match iterChildren g cfg preload (iterateEntry g cfg preload fuel) e.children done₂ with
        | none => none
        | some (out₂, done₃) => some (out₁ ++ self ++ out₂, done₃)
      else
        some (out₁ ++ self, done₂)

inductive IterErr
  | unparsedEntry (name : String)
  | fuelOut
  deriving DecidableEq, Repr

/-- `packet.files[name]` where `files` maps entry ids to modules (graph
indices standing for the object references). -/
def lookupFile (g : Graph) (files : List (String × Nat)) (name : String) : Option Module :=
  (files.lookup name).bind g.get?

/-- The entry loop of `[Symbol.iterator]` (bundle.js lines 131-145): look
every entry name up in `packet.files`, throw `unparsed entry` when absent,
skip values that are not `instanceof Module`, compute the `preload` flag
and run `iterateEntry`. -/
def bundleEntries (g : Graph) (cfg : IterCfg) (files : List (String × Nat)) (fuel : Nat) :
    List String → List String → Except IterErr (List Module × List String)
  | [], done => .ok ([], done)
  | name :: rest, done =>
    match lookupFile g files name with
    | none => .error (.unparsedEntry name)
    | some e =>
      if e.isModule = false then bundleEntries g cfg files fuel rest done
      else
        let preload := e.isPreload || e.fake || e.isWorker
        match iterateEntry g cfg preload fuel e done with
        | none => .error .fuelOut
        | some (out, done') =>
          match bundleEntries g cfg files fuel rest done' with
          | .error err => .error err
          | .ok (out₂, done₂) => .ok (out ++ out₂, done₂)

/-- The distinct module ids present in the graph. -/
def graphIds (g : Graph) : List String := (g.map (·.id)).dedup

/-- One full run of the bundle iterator over its entries, with the fuel
`iterateEntry` is shown to never exhaust. -/
def bundleIterate (g : Graph) (cfg : IterCfg) (files : List (String × Nat))
    (entries : List String) : Except IterErr (List Module × List String) :=
  bundleEntries g cfg files ((graphIds g).length + 1) entries []

end Porter

namespace Porter

/-! ## Traversal lemmas -/

theorem iterChildren_suffix {g : Graph} {cfg : IterCfg} {preload : Bool}
    {step : Module → List String → Option (List Module × List String)}
    (hstep : ∀ m d out d', step m d = some (out, d') → d <:+ d') :
    ∀ children done out done',
      iterChildren g cfg preload step children done = some (out, done') → done <:+ done' := by
  intro children
  induction children with
  | nil =>
    intro done out done' h
    simp only [iterChildren, Option.some.injEq, Prod.mk.injEq] at h
    obtain ⟨h1, h2⟩ := h
    subst h2
    exact List.suffix_refl _
  | cons ci rest ih =>
    intro done out done' h
    simp only [iterChildren] at h
    split at h
    · exact ih _ _ _ h
    · rename_i m hg
      split at h
      · exact ih _ _ _ h
      · rename_i hdone
        split at h
        · exact ih _ _ _ h
        · rename_i hskip
          split at h
          · cases h
          · rename_i out₁ done₁ hs
            split at h
            · cases h
            · rename_i out₂ done₂ hrest
              simp only [Option.some.injEq, Prod.mk.injEq] at h
              obtain ⟨h1, h2⟩ := h
              subst h2
              exact (hstep m done out₁ done₁ hs).trans (ih _ _ _ hrest)

theorem iterateEntry_suffix {g : Graph} {cfg : IterCfg} {preload : Bool} :
    ∀ fuel e done out done',
      iterateEntry g cfg preload fuel e done = some (out, done') → done <:+ done' := by
  intro fuel
  induction fuel with
  | zero => intro e done out done' h; cases h
  | succ fuel ih =>
    intro e done out done' h
    have hbase : done <:+ (e.id :: done) := ⟨[e.id], rfl⟩
    simp only [iterateEntry] at h
    split at h
    · cases h
    · rename_i out₁ done₂ h₁
      have hsfx₁ : (e.id :: done) <:+ done₂ := iterChildren_suffix ih _ _ _ _ h₁
      split at h
      · split at h
        · cases h
        · rename_i out₂ done₃ h₂
          simp only [Option.some.injEq, Prod.mk.injEq] at h
          obtain ⟨h1, h2⟩ := h
          subst h2
          exact hbase.trans (hsfx₁.trans (iterChildren_suffix ih _ _ _ _ h₂))
      · simp only [Option.some.injEq, Prod.mk.injEq] at h
        obtain ⟨h1, h2⟩ := h
        subst h2
        exact hbase.trans hsfx₁

end Porter

namespace Porter

theorem iterChildren_sound {g : Graph} {cfg : IterCfg} {preload : Bool}
    {step : Module → List String → Option (List Module × List String)}
    (hsfx : ∀ m d out d', step m d = some (out, d') → d <:+ d')
    (hstep : ∀ m d out d', step m d = some (out, d') →
      (∀ x ∈ out, x.id ∈ d') ∧ (out.map Module.id).Nodup ∧
      (∀ y ∈ d, y ≠ m.id → y ∉ out.map Module.id)) :
    ∀ children done out done',
      iterChildren g cfg preload step children done = some (out, done') →
      (∀ x ∈ out, x.id ∈ done') ∧ (out.map Module.id).Nodup ∧
      (∀ y ∈ done, y ∉ out.map Module.id) := by
  intro children
  induction children with
  | nil =>
    intro done out done' h
    simp only [iterChildren, Option.some.injEq, Prod.mk.injEq] at h
    obtain ⟨h1, h2⟩ := h
    subst h2
    refine ⟨?_, ?_, ?_⟩ <;> simp [← h1]
  | cons ci rest ih =>
    intro done out done' h
    simp only [iterChildren] at h
    split at h
    · exact ih _ _ _ h
    · rename_i m hg
      split at h
      · exact ih _ _ _ h
      · rename_i hdone
        split at h
        · exact ih _ _ _ h
        · rename_i hskip
          split at h
          · cases h
          · rename_i out₁ done₁ hs
            split at h
            · cases h
            · rename_i out₂ done₂ hrest
              simp only [Option.some.injEq, Prod.mk.injEq] at h
              obtain ⟨h1, h2⟩ := h
              subst h1 h2
              have hmem : m.id ∉ done := by
                intro hm
                exact hdone (by simpa using hm)
              obtain ⟨sub₁, nd₁, disj₁⟩ := hstep m done out₁ done₁ hs
              obtain ⟨sub₂, nd₂, disj₂⟩ := ih done₁ out₂ done₂ hrest
              have hsfx₂ : done₁ <:+ done₂ := iterChildren_suffix hsfx rest done₁ out₂ done₂ hrest
              have disj₁' : ∀ y ∈ done, y ∉ out₁.map Module.id := by
                intro y hy
                rcases eq_or_ne y m.id with rfl | hne
                · exact absurd hy hmem
                · exact disj₁ y hy hne
              refine ⟨?_, ?_, ?_⟩
              · intro x hx
                rcases List.mem_append.mp hx with hx₁ | hx₂
                · exact hsfx₂.subset (sub₁ x hx₁)
                · exact sub₂ x hx₂
              · rw [List.map_append]
                refine List.Nodup.append nd₁ nd₂ ?_
                intro a ha₁ ha₂
                obtain ⟨x, hx, rfl⟩ := List.mem_map.mp ha₁
                exact disj₂ x.id (sub₁ x hx) ha₂
              · intro y hy
                rw [List.map_append, List.mem_append]
                rintro (h₁ | h₂)
                · exact disj₁' y hy h₁
                · exact disj₂ y ((hsfx m done out₁ done₁ hs).subset hy) h₂

theorem iterateEntry_sound {g : Graph} {cfg : IterCfg} {preload : Bool} :
    ∀ fuel e done out done',
      iterateEntry g cfg preload fuel e done = some (out, done') →
      (∀ x ∈ out, x.id ∈ done') ∧ (out.map Module.id).Nodup ∧
      (∀ y ∈ done, y ≠ e.id → y ∉ out.map Module.id) := by
  intro fuel
  induction fuel with
  | zero => intro e done out done' h; cases h
  | succ fuel ih =>
    intro e done out done' h
    simp only [iterateEntry] at h
    split at h
    · cases h
    · rename_i out₁ done₂ h₁
      obtain ⟨sub₁, nd₁, disj₁⟩ := iterChildren_sound (iterateEntry_suffix fuel) ih _ _ _ _ h₁
      have hsfx₁ : (e.id :: done) <:+ done₂ := iterChildren_suffix (iterateEntry_suffix fuel) _ _ _ _ h₁
      have heid₂ : e.id ∈ done₂ := hsfx₁.subset (List.mem_cons_self _ _)
      have heId₁ : e.id ∉ out₁.map Module.id := disj₁ e.id (List.mem_cons_self _ _)
      split at h
      · rename_i hfmt
        split at h
        · cases h
        · rename_i out₂ done₃ h₂
          obtain ⟨sub₂, nd₂, disj₂⟩ := iterChildren_sound (iterateEntry_suffix fuel) ih _ _ _ _ h₂
          have hsfx₂ : done₂ <:+ done₃ := iterChildren_suffix (iterateEntry_suffix fuel) _ _ _ _ h₂
          simp only [Option.some.injEq, Prod.mk.injEq] at h
          obtain ⟨h1, h2⟩ := h
          subst h1 h2
          set self := if (extMap cfg.format).contains (extname e.file) then [e] else [] with hselfdef
          have hselfsub : ∀ x ∈ self, x = e := by
            intro x hx
            rw [hselfdef] at hx
            split at hx
            · simpa using hx
            · exact absurd hx (List.not_mem_nil x)
          refine ⟨?_, ?_, ?_⟩
          · intro x hx
            rcases List.mem_append.mp hx with hx' | hx₂
            · rcases List.mem_append.mp hx' with hx₁ | hxs
              · exact hsfx₂.subset (sub₁ x hx₁)
              · rw [hselfsub x hxs]
                exact hsfx₂.subset heid₂
            · exact sub₂ x hx₂
          · rw [List.map_append, List.map_append]
            have ndself : (self.map Module.id).Nodup := by
              rw [hselfdef]; split <;> simp
            refine List.Nodup.append (List.Nodup.append nd₁ ndself ?_) nd₂ ?_
            · intro a ha₁ has
              obtain ⟨x, hx, rfl⟩ := List.mem_map.mp has
              rw [hselfsub x hx] at ha₁
              exact heId₁ ha₁
            · intro a ha₁ ha₂
              rcases List.mem_append.mp ha₁ with ha₁' | has
              · obtain ⟨x, hx, rfl⟩ := List.mem_map.mp ha₁'
                exact disj₂ x.id (sub₁ x hx) ha₂
              · obtain ⟨x, hx, rfl⟩ := List.mem_map.mp has
                rw [hselfsub x hx] at ha₂
                exact disj₂ e.id heid₂ ha₂
          · intro y hy hne
            rw [List.map_append, List.map_append]
            simp only [List.mem_append]
            push_neg
            have hy₁ : y ∈ e.id :: done := List.mem_cons_of_mem _ hy
            refine ⟨⟨disj₁ y hy₁, ?_⟩, disj₂ y (hsfx₁.subset hy₁)⟩
            intro hys
            obtain ⟨x, hx, hxy⟩ := List.mem_map.mp hys
            rw [hselfsub x hx] at hxy
            exact hne hxy.symm
      · simp only [Option.some.injEq, Prod.mk.injEq] at h
        obtain ⟨h1, h2⟩ := h
        subst h1 h2
        set self := if (extMap cfg.format).contains (extname e.file) then [e] else [] with hselfdef
        have hselfsub : ∀ x ∈ self, x = e := by
          intro x hx
          rw [hselfdef] at hx
          split at hx
          · simpa using hx
          · exact absurd hx (List.not_mem_nil x)
        refine ⟨?_, ?_, ?_⟩
        · intro x hx
          rcases List.mem_append.mp hx with hx₁ | hxs
          · exact sub₁ x hx₁
          · rw [hselfsub x hxs]; exact heid₂
        · rw [List.map_append]
          have ndself : (self.map Module.id).Nodup := by
            rw [hselfdef]; split <;> simp
          refine List.Nodup.append nd₁ ndself ?_
          intro a ha₁ has
          obtain ⟨x, hx, rfl⟩ := List.mem_map.mp has
          rw [hselfsub x hx] at ha₁
          exact heId₁ ha₁
        · intro y hy hne
          rw [List.map_append]
          simp only [List.mem_append]
          push_neg
          have hy₁ : y ∈ e.id :: done := List.mem_cons_of_mem _ hy
          refine ⟨disj₁ y hy₁, ?_⟩
          intro hys
          obtain ⟨x, hx, hxy⟩ := List.mem_map.mp hys
          rw [hselfsub x hx] at hxy
          exact hne hxy.symm

end Porter

namespace Porter

/-! ## Termination: the fuel `|ids| + 1` is never exhausted -/

/-- Ids of graph modules not yet in `done`. -/
def freshIds (g : Graph) (done : List String) : List String :=
  (graphIds g).filter (fun x => !done.contains x)

theorem freshIds_anti {g : Graph} {done done' : List String} (h : done <:+ done') :
    List.Sublist (freshIds g done') (freshIds g done) := by
  refine List.monotone_filter_right _ ?_
  intro a ha
  simp only [Bool.not_eq_true'] at ha ⊢
  cases hc : done.contains a
  · rfl
  · exfalso
    have : a ∈ done := by simpa using hc
    have : a ∈ done' := h.subset this
    simp [this] at ha

theorem freshIds_cons_lt {g : Graph} {done : List String} {i : String}
    (hig : i ∈ graphIds g) (hd : done.contains i = false) :
    (freshIds g (i :: done)).length < (freshIds g done).length := by
  have hsub : List.Sublist (freshIds g (i :: done)) (freshIds g done) :=
    freshIds_anti ⟨[i], rfl⟩
  refine Nat.lt_of_le_of_ne hsub.length_le ?_
  intro heq
  have heqL : freshIds g (i :: done) = freshIds g done := hsub.eq_of_length heq
  have hi : i ∈ freshIds g done := by
    simp only [freshIds, List.mem_filter]
    exact ⟨hig, by simp only [Bool.not_eq_true']; exact hd⟩
  rw [← heqL] at hi
  simp only [freshIds, List.mem_filter] at hi
  simp at hi

theorem iterChildren_isSome {g : Graph} {cfg : IterCfg} {preload : Bool} {B : Nat}
    {step : Module → List String → Option (List Module × List String)}
    (hsfx : ∀ m d out d', step m d = some (out, d') → d <:+ d')
    (hstep : ∀ m d, m ∈ g → d.contains m.id = false → (freshIds g d).length ≤ B →
      (step m d).isSome) :
    ∀ children done, (freshIds g done).length ≤ B →
      (iterChildren g cfg preload step children done).isSome := by
  intro children
  induction children with
  | nil => intro done hB; simp [iterChildren]
  | cons ci rest ih =>
    intro done hB
    simp only [iterChildren]
    split
    · exact ih done hB
    · rename_i m hg
      split
      · exact ih done hB
      · rename_i hdone
        split
        · exact ih done hB
        · rename_i hskip
          have hmem : m ∈ g := List.get?_mem hg
          have hcont : done.contains m.id = false := by
            cases hc : done.contains m.id
            · rfl
            · exact absurd hc hdone
          obtain ⟨⟨out₁, done₁⟩, heq⟩ :=
            Option.isSome_iff_exists.mp (hstep m done hmem hcont hB)
          have hB₁ : (freshIds g done₁).length ≤ B :=
            le_trans (freshIds_anti (hsfx m done out₁ done₁ heq)).length_le hB
          obtain ⟨⟨out₂, done₂⟩, heq₂⟩ := Option.isSome_iff_exists.mp (ih done₁ hB₁)
          simp [heq, heq₂]

theorem mem_graphIds {g : Graph} {m : Module} (h : m ∈ g) : m.id ∈ graphIds g :=
  List.mem_dedup.mpr (List.mem_map_of_mem _ h)

theorem iterateEntry_isSome {g : Graph} {cfg : IterCfg} {preload : Bool} :
    ∀ fuel e done, (freshIds g (e.id :: done)).length < fuel →
      (iterateEntry g cfg preload fuel e done).isSome := by
  intro fuel
  induction fuel with
  | zero => intro e done h; omega
  | succ fuel ih =>
    intro e done h
    have hB : (freshIds g (e.id :: done)).length ≤ fuel := Nat.lt_succ_iff.mp h
    have hstep : ∀ m d, m ∈ g → d.contains m.id = false → (freshIds g d).length ≤ fuel →
        (iterateEntry g cfg preload fuel m d).isSome := by
      intro m d hm hc hB'
      refine ih m d (lt_of_lt_of_le ?_ hB')
      exact freshIds_cons_lt (mem_graphIds hm) hc
    have h₁ := @iterChildren_isSome g cfg preload fuel (iterateEntry g cfg preload fuel)
      (iterateEntry_suffix fuel) hstep e.children (e.id :: done) hB
    simp only [iterateEntry]
    split
    · rename_i heq₁
      rw [heq₁] at h₁
      simp at h₁
    · rename_i out₁ done₂ heq₁
      have hsfx₁ := iterChildren_suffix (iterateEntry_suffix fuel) _ _ _ _ heq₁
      have hB₂ : (freshIds g done₂).length ≤ fuel :=
        le_trans (freshIds_anti hsfx₁).length_le hB
      have h₂ := @iterChildren_isSome g cfg preload fuel (iterateEntry g cfg preload fuel)
        (iterateEntry_suffix fuel) hstep e.children done₂ hB₂
      split
      · split
        · rename_i heq₂
          rw [heq₂] at h₂
          simp at h₂
        · rfl
      · rfl

theorem bundleEntries_suffix {g : Graph} {cfg : IterCfg} {files : List (String × Nat)}
    {fuel : Nat} :
    ∀ names done out done', bundleEntries g cfg files fuel names done = .ok (out, done') →
      done <:+ done' := by
  intro names
  induction names with
  | nil =>
    intro done out done' h
    simp only [bundleEntries, Except.ok.injEq, Prod.mk.injEq] at h
    obtain ⟨h1, h2⟩ := h
    subst h2
    exact List.suffix_refl _
  | cons name rest ih =>
    intro done out done' h
    simp only [bundleEntries] at h
    split at h
    · cases h
    · rename_i e he
      split at h
      · exact ih _ _ _ h
      · split at h
        · cases h
        · rename_i out₁ done₁ heq
          split at h
          · cases h
          · rename_i out₂ done₂ hrest
            simp only [Except.ok.injEq, Prod.mk.injEq] at h
            obtain ⟨h1, h2⟩ := h
            subst h2
            exact (iterateEntry_suffix _ _ _ _ _ heq).trans (ih _ _ _ hrest)

theorem bundleEntries_not_fuelOut {g : Graph} {cfg : IterCfg} {files : List (String × Nat)}
    {fuel : Nat} :
    ∀ names done, (freshIds g done).length < fuel →
      bundleEntries g cfg files fuel names done ≠ .error .fuelOut := by
  intro names
  induction names with
  | nil => intro done hlt h; simp [bundleEntries] at h
  | cons name rest ih =>
    intro done hlt h
    simp only [bundleEntries] at h
    split at h
    · simp at h
    · rename_i e he
      split at h
      · exact ih done hlt h
      · split at h
        · rename_i heq
          have hfresh : (freshIds g (e.id :: done)).length < fuel :=
            lt_of_le_of_lt (freshIds_anti ⟨[e.id], rfl⟩).length_le hlt
          have := @iterateEntry_isSome g cfg (e.isPreload || e.fake || e.isWorker) fuel e done hfresh
          rw [heq] at this
          simp at this
        · rename_i out₁ done₁ heq
          split at h
          · rename_i err hrest
            have herr : err = IterErr.fuelOut := by
              simpa using h
            subst herr
            have hlt₁ : (freshIds g done₁).length < fuel :=
              lt_of_le_of_lt (freshIds_anti (iterateEntry_suffix _ _ _ _ _ heq)).length_le hlt
            exact ih done₁ hlt₁ hrest
          · simp at h

end Porter

namespace Porter

/-- Ids of the modules found for the bundle's entry names. -/
def entryModIds (g : Graph) (files : List (String × Nat)) (names : List String) : List String :=
  names.filterMap (fun n => (lookupFile g files n).map Module.id)

theorem bundleEntries_count {g : Graph} {cfg : IterCfg} {files : List (String × Nat)}
    {fuel : Nat} :
    ∀ names done out done', bundleEntries g cfg files fuel names done = .ok (out, done') →
      (∀ x ∈ out, x.id ∈ done') ∧
      (∀ y, y ∉ entryModIds g files names →
        (y ∈ done → y ∉ out.map Module.id) ∧ (out.map Module.id).count y ≤ 1) := by
  intro names
  induction names with
  | nil =>
    intro done out done' h
    simp only [bundleEntries, Except.ok.injEq, Prod.mk.injEq] at h
    obtain ⟨h1, h2⟩ := h
    subst h2
    constructor
    · simp [← h1]
    · intro y hy
      simp [← h1]
  | cons name rest ih =>
    intro done out done' h
    simp only [bundleEntries] at h
    split at h
    · cases h
    · rename_i e he
      have hids : entryModIds g files (name :: rest) = e.id :: entryModIds g files rest := by
        simp [entryModIds, he]
      split at h
      · -- mocked module, skipped
        obtain ⟨hsub, hcnt⟩ := ih _ _ _ h
        refine ⟨hsub, ?_⟩
        intro y hy
        rw [hids] at hy
        exact hcnt y (fun hmem => hy (List.mem_cons_of_mem _ hmem))
      · split at h
        · cases h
        · rename_i out₁ done₁ heq
          split at h
          · cases h
          · rename_i out₂ done₂ hrest
            simp only [Except.ok.injEq, Prod.mk.injEq] at h
            obtain ⟨h1, h2⟩ := h
            subst h1 h2
            obtain ⟨sub₁, nd₁, disj₁⟩ := iterateEntry_sound _ _ _ _ _ heq
            obtain ⟨sub₂, hcnt₂⟩ := ih _ _ _ hrest
            have hsfx₂ : done₁ <:+ done₂ := bundleEntries_suffix _ _ _ _ hrest
            refine ⟨?_, ?_⟩
            · intro x hx
              rcases List.mem_append.mp hx with hx₁ | hx₂
              · exact hsfx₂.subset (sub₁ x hx₁)
              · exact sub₂ x hx₂
            · intro y hy
              rw [hids] at hy
              have hyne : y ≠ e.id := fun hc => hy (hc ▸ List.mem_cons_self _ _)
              have hyrest : y ∉ entryModIds g files rest :=
                fun hmem => hy (List.mem_cons_of_mem _ hmem)
              obtain ⟨hdone₂, hcount₂⟩ := hcnt₂ y hyrest
              constructor
              · intro hyd
                rw [List.map_append, List.mem_append]
                push_neg
                exact ⟨disj₁ y hyd hyne,
                  hdone₂ ((iterateEntry_suffix _ _ _ _ _ heq).subset hyd)⟩
              · rw [List.map_append, List.count_append]
                by_cases hy₁ : y ∈ out₁.map Module.id
                · have hc₁ : (out₁.map Module.id).count y ≤ 1 :=
                    List.nodup_iff_count_le_one.mp nd₁ y
                  obtain ⟨x, hx, hxy⟩ := List.mem_map.mp hy₁
                  have hyd₁ : y ∈ done₁ := hxy ▸ sub₁ x hx
                  have : y ∉ out₂.map Module.id := hdone₂ hyd₁
                  rw [List.count_eq_zero.mpr this]
                  omega
                · rw [List.count_eq_zero.mpr hy₁]
                  have : (out₂.map Module.id).count y ≤ 1 := hcount₂
                  omega

/-! ## Preload skipping -/

theorem iterChildren_preload {g : Graph} {cfg : IterCfg} {preload : Bool}
    {step : Module → List String → Option (List Module × List String)}
    (hfmt : cfg.format = Format.js) (hiso : cfg.packetIsolated = false)
    (hpre : preload = false)
    (hstep : ∀ m d out d', m.preloaded = false → step m d = some (out, d') →
      ∀ x ∈ out, x.preloaded = false) :
    ∀ children done out done',
      iterChildren g cfg preload step children done = some (out, done') →
      ∀ x ∈ out, x.preloaded = false := by
  intro children
  induction children with
  | nil =>
    intro done out done' h
    simp only [iterChildren, Option.some.injEq, Prod.mk.injEq] at h
    obtain ⟨h1, h2⟩ := h
    simp [← h1]
  | cons ci rest ih =>
    intro done out done' h
    simp only [iterChildren] at h
    split at h
    · exact ih _ _ _ h
    · rename_i m hg
      split at h
      · exact ih _ _ _ h
      · rename_i hdone
        split at h
        · exact ih _ _ _ h
        · rename_i hskip
          have hmp : m.preloaded = false := by
            cases hp : m.preloaded
            · rfl
            · exfalso
              exact hskip (by simp [skipChild, hfmt, hiso, hp, hpre])
          split at h
          · cases h
          · rename_i out₁ done₁ hs
            split at h
            · cases h
            · rename_i out₂ done₂ hrest
              simp only [Option.some.injEq, Prod.mk.injEq] at h
              obtain ⟨h1, h2⟩ := h
              subst h2
              intro x hx
              rw [← h1] at hx
              rcases List.mem_append.mp hx with hx₁ | hx₂
              · exact hstep m done out₁ done₁ hmp hs x hx₁
              · exact ih _ _ _ hrest x hx₂

theorem iterateEntry_preload {g : Graph} {cfg : IterCfg} {preload : Bool}
    (hfmt : cfg.format = Format.js) (hiso : cfg.packetIsolated = false)
    (hpre : preload = false) :
    ∀ fuel e done out done',
      iterateEntry g cfg preload fuel e done = some (out, done') →
      ∀ x ∈ out, x = e ∨ x.preloaded = false := by
  intro fuel
  induction fuel with
  | zero => intro e done out done' h; cases h
  | succ fuel ih =>
    have hstep : ∀ m d out d', m.preloaded = false →
        iterateEntry g cfg preload fuel m d = some (out, d') →
        ∀ x ∈ out, x.preloaded = false := by
      intro m d out d' hmp hs x hx
      rcases ih m d out d' hs x hx with rfl | hxp
      · exact hmp
      · exact hxp
    intro e done out done' h
    simp only [iterateEntry] at h
    split at h
    · cases h
    · rename_i out₁ done₂ h₁
      have hout₁ := iterChildren_preload hfmt hiso hpre hstep _ _ _ _ h₁
      split at h
      · split at h
        · cases h
        · rename_i out₂ done₃ h₂
          have hout₂ := iterChildren_preload hfmt hiso hpre hstep _ _ _ _ h₂
          simp only [Option.some.injEq, Prod.mk.injEq] at h
          obtain ⟨h1, h2⟩ := h
          intro x hx
          rw [← h1] at hx
          rcases List.mem_append.mp hx with hx' | hx₂
          · rcases List.mem_append.mp hx' with hx₁ | hxs
            · exact Or.inr (hout₁ x hx₁)
            · left
              revert hxs
              split
              · intro hxs
                simpa using hxs
              · intro hxs
                exact absurd hxs (List.not_mem_nil x)
          · exact Or.inr (hout₂ x hx₂)
      · rename_i hne
        exact absurd hfmt hne

theorem bundleEntries_preload {g : Graph} {cfg : IterCfg} {files : List (String × Nat)}
    {fuel : Nat} (hfmt : cfg.format = Format.js) (hiso : cfg.packetIsolated = false) :
    ∀ names done out done',
      bundleEntries g cfg files fuel names done = .ok (out, done') →
      (∀ n ∈ names, ∀ e, lookupFile g files n = some e →
        (e.isPreload || e.fake || e.isWorker) = false) →
      ∀ x ∈ out, x.preloaded = true → ∃ n ∈ names, lookupFile g files n = some x := by
  intro names
  induction names with
  | nil =>
    intro done out done' h hflags x hx
    simp only [bundleEntries, Except.ok.injEq, Prod.mk.injEq] at h
    obtain ⟨h1, h2⟩ := h
    rw [← h1] at hx
    simp at hx
  | cons name rest ih =>
    intro done out done' h hflags x hx hxp
    simp only [bundleEntries] at h
    split at h
    · cases h
    · rename_i e he
      split at h
      · obtain ⟨n, hn, hne⟩ := ih _ _ _ h
          (fun n hn => hflags n (List.mem_cons_of_mem _ hn)) x hx hxp
        exact ⟨n, List.mem_cons_of_mem _ hn, hne⟩
      · split at h
        · cases h
        · rename_i out₁ done₁ heq
          split at h
          · cases h
          · rename_i out₂ done₂ hrest
            simp only [Except.ok.injEq, Prod.mk.injEq] at h
            obtain ⟨h1, h2⟩ := h
            rw [← h1] at hx
            have hpre : (e.isPreload || e.fake || e.isWorker) = false :=
              hflags name (List.mem_cons_self _ _) e he
            rcases List.mem_append.mp hx with hx₁ | hx₂
            · rcases iterateEntry_preload hfmt hiso hpre _ _ _ _ _ heq x hx₁ with rfl | hxf
              · exact ⟨name, List.mem_cons_self _ _, he⟩
              · rw [hxf] at hxp; cases hxp
            · obtain ⟨n, hn, hne⟩ := ih _ _ _ hrest
                (fun n hn => hflags n (List.mem_cons_of_mem _ hn)) x hx₂ hxp
              exact ⟨n, List.mem_cons_of_mem _ hn, hne⟩

end Porter

namespace Porter

/-! ## Concrete fixtures -/

/-- A plain module used to build concrete graphs. -/
def sampleModule (i : String) (cs : List Nat) : Module :=
  { id := i, file := i, children := cs, packetId := 0, packetIsolated := false,
    preloaded := false, isPreload := false, fake := false, isWorker := false,
    isolated := false, isRootEntry := false, isModule := true,
    code := "define(" ++ jsonString i ++ ")", minCode := "min", lockJson := "{}" }

/-- Two modules: `a.js` depends on `b.js`; both are bundle entries. -/
def overlapGraph : Graph := [sampleModule "a.js" [1], sampleModule "b.js" []]

def overlapFiles : List (String × Nat) := [("a.js", 0), ("b.js", 1)]

def jsCfg : IterCfg :=
  { format := .js, packetId := 0, packetIsolated := false, scope := .packet }

/-- A single entry that carries the `preloaded` mark. -/
def preloadedMod : Module := { sampleModule "a.js" [] with preloaded := true }

/-- C4, counterexample: with entries `a.js, b.js` where `a.js` depends on
`b.js`, the traversal yields the id `b.js` twice — once as a dependency of
`a.js` and once more when `b.js` itself is iterated, because the top-level
entry loop does not consult the `done` set. -/
theorem C4_counterexample :
    (bundleIterate overlapGraph jsCfg overlapFiles ["a.js", "b.js"]).map
        (fun p => p.1.map Module.id) = .ok ["b.js", "a.js", "b.js"] ∧
    ¬ ((["b.js", "a.js", "b.js"] : List String).count "b.js" ≤ 1) :=
  ⟨rfl, by decide⟩

/-- C4 (amended): for every module graph — cyclic ones included — one
iteration of a Bundle terminates (the fuel `|ids| + 1` used by
`bundleIterate` is never exhausted), and each module id that is not the id
of one of the entry modules themselves is yielded at most once; an entry
module already yielded during an earlier entry's traversal is yielded once
more when its own turn comes. -/
theorem C4_traversal_terminates_and_unique (g : Graph) (cfg : IterCfg)
    (files : List (String × Nat)) (entries : List String) :
    bundleIterate g cfg files entries ≠ .error .fuelOut ∧
    ∀ out done', bundleIterate g cfg files entries = .ok (out, done') →
      ∀ y, y ∉ entryModIds g files entries → (out.map Module.id).count y ≤ 1 := by
  constructor
  · apply bundleEntries_not_fuelOut
    have h := List.length_filter_le (fun x => !List.contains [] x) (graphIds g)
    simp only [freshIds]
    omega
  · intro out done' h y hy
    simp only [bundleIterate] at h
    exact ((bundleEntries_count _ _ _ _ h).2 y hy).2

theorem C4_witness :
    bundleIterate overlapGraph jsCfg overlapFiles ["a.js"] ≠ .error .fuelOut ∧
    ((["b.js", "a.js"] : List String).count "c.js" ≤ 1) :=
  ⟨(C4_traversal_terminates_and_unique overlapGraph jsCfg overlapFiles ["a.js"]).1,
    (C4_traversal_terminates_and_unique overlapGraph jsCfg overlapFiles ["a.js"]).2
      _ _ rfl "c.js" (by decide)⟩

/-- C3, counterexample: a module with the `preloaded` flag that is itself
the entry being iterated is yielded even though the entry is none of
preload/fake/worker and the packet is not isolated — the guard of
`iterate` only applies to children. -/
theorem C3_counterexample :
    bundleIterate [preloadedMod] jsCfg [("a.js", 0)] ["a.js"] =
      .ok ([preloadedMod], ["a.js"]) ∧
    preloadedMod.preloaded = true ∧
    jsCfg.packetIsolated = false ∧
    (preloadedMod.isPreload || preloadedMod.fake || preloadedMod.isWorker) = false :=
  ⟨rfl, rfl, rfl, rfl⟩

/-- C3 (amended): in a `.js` traversal whose owning packet is not isolated
and whose entries are none of preload/fake/worker, every yielded module
with the `preloaded` flag set is one of the entry modules themselves;
equivalently, every preloaded module reached as a dependency is skipped. -/
theorem C3_preloaded_only_entries (g : Graph) (cfg : IterCfg)
    (files : List (String × Nat)) (entries : List String)
    (out : List Module) (done' : List String)
    (hfmt : cfg.format = Format.js) (hiso : cfg.packetIsolated = false)
    (h : bundleIterate g cfg files entries = .ok (out, done'))
    (hflags : ∀ n ∈ entries, ∀ e, lookupFile g files n = some e →
      (e.isPreload || e.fake || e.isWorker) = false) :
    ∀ x ∈ out, x.preloaded = true → ∃ n ∈ entries, lookupFile g files n = some x := by
  simp only [bundleIterate] at h
  exact bundleEntries_preload hfmt hiso _ _ _ _ h hflags

theorem C3_witness :
    ∃ n ∈ ["a.js"], lookupFile [preloadedMod] [("a.js", 0)] n = some preloadedMod :=
  C3_preloaded_only_entries [preloadedMod] jsCfg [("a.js", 0)] ["a.js"]
    [preloadedMod] ["a.js"] rfl rfl rfl (by decide) preloadedMod (by decide) rfl

end Porter

namespace Porter

/-! ## The Bundle object: state, getters, `obtain`, `reload`, `create` -/

/-- The packet attributes bundle.js reads. `entriesMap` pairs each key of
`packet.entries` with the `isRootEntry` flag of its module (the only
attribute the `entries` getter consults); `lockJson` stands for
`JSON.stringify(packet.lock)`. -/
structure Packet where
  id : Nat
  isolated : Bool
  hasParent : Bool
  name : String
  version : String
  main : String
  files : List (String × Nat)
  entriesMap : List (String × Bool)
  lockJson : String
  deriving DecidableEq, Repr

/-- The fixed surroundings of one Bundle: the module graph, the owning
packet, the bundle's `format` and `scope` (set once in the constructor),
`app.preload.length > 0`, the loader source `packet.parseLoader` returns
(raw, and as minified by `minifyLoader`), and `app.cache.path`. -/
structure BundleEnv where
  graph : Graph
  packet : Packet
  format : Format
  scope : Scope
  appPreloadNonempty : Bool
  loaderRaw : String
  loaderMin : String
  cachePath : String
  deriving DecidableEq, Repr

/-- The mutable private fields `#entries`, `#code`, `#map`, `#etag`,
`#contenthash`; JS `null` is `none`.  The `#etag` string
`JSON.stringify({ entries })` is represented by the entries list itself,
and the source map by the list of chunks the `SourceNode` was built
from. -/
structure BundleState where
  entries : Option (List String)
  code : Option String
  map : Option (List String)
  etag : Option (List String)
  contenthash : Option String
  deriving DecidableEq, Repr

/-- State of a freshly constructed Bundle (constructor lines 77-95):
`#entries` is the given array when nonempty, else `null`. -/
def mkBundleState (entries : Option (List String)) : BundleState :=
  { entries := match entries with
      | some es => if es.length > 0 then some es else none
      | none => none,
    code := none, map := none, etag := none, contenthash := none }

/-- The `entries` getter (lines 148-155): the private list when set, else
the `.js`, non-root-entry keys of `packet.entries`. -/
def entriesGetter (env : BundleEnv) (st : BundleState) : List String :=
  match st.entries with
  | some es => es
  | none =>
    (env.packet.entriesMap.filter (fun fe => fe.1.endsWith ".js" && !fe.2)).map (·.1)

/-- `getEntry(packet, entries)` (lines 19-21); `none` stands for the JS
`undefined` that `entries[0]` yields on an empty array. -/
def getEntry (packet : Packet) (entries : Option (List String)) : Option String :=
  match entries with
  | some es => if es.length = 1 ∨ ¬ packet.hasParent then es.head? else some packet.main
  | none => some packet.main

/-- The `entry` getter (lines 161-164). -/
def entryGetter (env : BundleEnv) (st : BundleState) : Option String :=
  getEntry env.packet st.entries

/-- JS truthiness of `#code`: `null` and `''` are falsy. -/
def codeFalsy (st : BundleState) : Bool :=
  match st.code with
  | none => true
  | some c => c.isEmpty

/-- The `contenthash` getter (lines 174-181): `''` when `#code` is falsy,
else the memoised first 8 hex characters of the md5 of `#code`. `md5hex`
abstracts `crypto.createHash('md5').update(code).digest('hex')`. -/
def contenthashGetter (md5hex : String → String) (st : BundleState) : String × BundleState :=
  if codeFalsy st then ("", st)
  else
    let cached := st.contenthash.getD ""
    if cached.isEmpty then
      let h := (md5hex (st.code.getD "")).take 8
      (h, { st with contenthash := some h })
    else (cached, st)

/-- The `output` getter (lines 166-172): `''` when there are no entries or
no code, else the entry with its extension replaced by
`.<contenthash><format>`.  (The `none` branch of the entry is unreachable:
when the resolved entries are nonempty the entry getter is `some`.) -/
def outputGetter (md5hex : String → String) (env : BundleEnv) (st : BundleState) : String :=
  let entries := entriesGetter env st
  if entries.length = 0 ∨ codeFalsy st then ""
  else
    match entryGetter env st with
    | some entry =>
      replaceRExt entry ("." ++ (contenthashGetter md5hex st).1 ++ env.format.ext)
    | none => ""

/-- The `outputPath` getter (lines 183-188). -/
def outputPathGetter (md5hex : String → String) (env : BundleEnv) (st : BundleState) : String :=
  let output := outputGetter md5hex env st
  if env.packet.hasParent then pathJoin [env.packet.name, env.packet.version, output]
  else output

/-- The named options of `obtain` (line 256): `loader` is tri-state
(`undefined`/`true`/`false`), `minify` defaults to false. -/
structure ObtainOpts where
  loader : Option Bool
  minify : Bool
  deriving DecidableEq, Repr

def defaultOpts : ObtainOpts := { loader := none, minify := false }

structure ObtainResult where
  code : Option String
  map : Option (List String)
  deriving DecidableEq, Repr

inductive ObtainErr
  | iter (e : IterErr)
  | missingEntry (name : String)
  | typeError
  deriving DecidableEq, Repr

/-- The loader chunk `obtain` prepends (lines 292-298). -/
def loaderLine (env : BundleEnv) (opts : ObtainOpts) : String :=
  if opts.minify then env.loaderMin else env.loaderRaw

/-- The trailing `porter["import"](…)` chunk (line 299). -/
def importLine (mod : Module) : String :=
  "porter[\"import\"](" ++ jsonString mod.id ++ ")"

/-- The lock snapshot chunk (lines 287-290). -/
def lockLine (env : BundleEnv) (mod : Module) : String :=
  "Object.assign(porter.lock, " ++
    (if env.appPreloadNonempty ∧ mod.fake then mod.lockJson else env.packet.lockJson) ++ ")"

/-- Per-module contributions: `mod.minify()` or `mod.obtain()` (line 269). -/
def modChunks (mods : List Module) (minify : Bool) : List String :=
  mods.map (fun m => if minify then m.minCode else m.code)

/-- The children of the final `SourceNode` in order: prepended loader,
prepended lock snapshot, the per-module chunks, appended import call
(lines 264-302). -/
def obtainChunks (env : BundleEnv) (opts : ObtainOpts) (mod : Module)
    (mods : List Module) : List String :=
  (if mod.isRootEntry ∧ opts.loader ≠ some false ∧ env.format = Format.js then
    [loaderLine env opts] else []) ++
  (if mod.isRootEntry ∧ ¬ mod.isPreload ∧ env.format = Format.js then
    [lockLine env mod] else []) ++
  modChunks mods opts.minify ++
  (if mod.isRootEntry ∧ opts.loader ≠ some false ∧ env.format = Format.js then
    [importLine mod] else [])

/-- `Bundle.obtain` (lines 256-309).  Returns the cached `{code, map}` when
`#etag` matches the current entries; otherwise iterates the graph, throws
on unparsed entries (inside the iterator), on a first entry missing for a
`.js` bundle (line 275), or — for any other format — when reading
`isRootEntry` of `undefined` (line 280, a TypeError); then assembles the
chunks, joins them with newlines, and caches `code`, `map` and `etag`,
resetting `#contenthash`.  (`packet.pack()` of dependent packets is an
external effect with no bearing on the produced value.) -/
def obtain (env : BundleEnv) (st : BundleState) (opts : ObtainOpts) :
    Except ObtainErr (ObtainResult × BundleState) :=
  let entries := entriesGetter env st
  if st.etag = some entries then
    .ok ({ code := st.code, map := st.map }, st)
  else
    let cfg : IterCfg :=
      { format := env.format, packetId := env.packet.id,
        packetIsolated := env.packet.isolated, scope := env.scope }
    match bundleIterate env.graph cfg env.packet.files entries with
    | .error e => .error (.iter e)
    | .ok (mods, _) =>
      match entries.head? >>= lookupFile env.graph env.packet.files with
      | none =>
        if env.format = Format.js then
          .error (.missingEntry (entries.head?.getD "undefined"))
        else .error .typeError
      | some mod =>
        let chunks := obtainChunks env opts mod mods
        let codeStr := String.intercalate "\n" chunks
        .ok ({ code := some codeStr, map := some chunks },
          { st with code := some codeStr, map := some chunks,
                    etag := some entries, contenthash := none })

/-- `_reload` clearing the cached artifacts (lines 237-247). -/
def clearBundle (st : BundleState) : BundleState :=
  { st with code := none, map := none, etag := none, contenthash := none }

/-- `Bundle._reload` (lines 237-247): `none` when `outputPath` is falsy
(early return), else the unlinked file path together with the `obtain` run
on the cleared state. -/
def reloadOnce (md5hex : String → String) (env : BundleEnv) (st : BundleState) :
    Option (String × Except ObtainErr (ObtainResult × BundleState)) :=
  let outputPath := outputPathGetter md5hex env st
  if outputPath.isEmpty then none
  else
    some (pathJoin [env.cachePath, outputPath],
      obtain env (clearBundle st) defaultOpts)

/-- The timers of `Bundle.reload` (lines 232-235): each call cancels a
pending not-yet-fired timeout and schedules `_reload` 100 ms later; a
pending timeout whose deadline has passed has already fired.  Given the
call instants in order and the pending deadline, returns the instants at
which `_reload` runs. -/
def debounceFires : List Nat → Option Nat → List Nat
  | [], pending =>
    match pending with
    | none => []
    | some d => [d]
  | t :: rest, none => debounceFires rest (some (t + 100))
  | t :: rest, some d =>
    if d ≤ t then d :: debounceFires rest (some (t + 100))
    else debounceFires rest (some (t + 100))

/-! ## `Bundle.create` (lines 61-75) -/

/-- The options `Bundle.create` consults for the bundle key. -/
structure CreateOpts where
  entries : Option (List String)
  format : Option Format
  deriving DecidableEq, Repr

/-- `packet.bundles` plus an allocation counter standing for object
identity of `new Bundle(options)`. -/
structure CreateState where
  bundles : List (String × Nat)
  nextId : Nat
  deriving DecidableEq, Repr

/-- The format default (lines 63-65):
`entries && path.extname(entries[0] || '') === '.css' ? '.css' : '.js'`. -/
def createFormat (opts : CreateOpts) : Format :=
  match opts.format with
  | some f => f
  | none =>
    match opts.entries with
    | some es => if extname (es.headD "") = ".css" then Format.css else Format.js
    | none => Format.js

/-- The bundle key (line 68). `getEntry` may yield `undefined` (empty
entries array): for `.css` the `entry.replace` then throws a TypeError,
otherwise `bundles[undefined]` reads the property literally named
`"undefined"`. -/
def createKey (packet : Packet) (opts : CreateOpts) (fmt : Format) : Except Unit String :=
  match getEntry packet opts.entries with
  | some entry => .ok (if fmt = Format.css then replaceRExt entry ".css" else entry)
  | none => if fmt = Format.css then .error () else .ok "undefined"

/-- `Bundle.create` (lines 61-75): reuse the bundle under the computed key,
else allocate and record a new one. -/
def createBundle (packet : Packet) (opts : CreateOpts) (st : CreateState) :
    Except Unit (Nat × CreateState) :=
  let fmt := createFormat opts
  match createKey packet opts fmt with
  | .error e => .error e
  | .ok key =>
    match st.bundles.lookup key with
    | some b => .ok (b, st)
    | none =>
      .ok (st.nextId, { bundles := (key, st.nextId) :: st.bundles, nextId := st.nextId + 1 })

/-! ## The `?main` response of the legacy middleware (part_003) -/

/-- `formatMain(id, content)` (part_003 lines 431-437): the loader source,
a `porter.config` call carrying the loader configuration, the module
content, and a `porter["import"]` call naming the id with its extension
stripped (`id.replace(RE_EXT, '')`). -/
def formatMain (loaderSource loaderConfigJson id content : String) : String :=
  loaderSource ++ "\nporter.config(" ++ loaderConfigJson ++ ")\n" ++ content ++
    "\nporter[\"import\"](" ++ jsonString (stripExt id) ++ ")\n"

end Porter

namespace Porter

/-! ## Obtain lemmas and claims -/

/-- A root packet for concrete checks. -/
def samplePacket (files : List (String × Nat)) : Packet :=
  { id := 0, isolated := false, hasParent := false, name := "app", version := "1.0.0",
    main := "index.js", files := files, entriesMap := [], lockJson := "{}" }

/-- Surroundings for concrete checks. -/
def sampleEnv (g : Graph) (files : List (String × Nat)) (fmt : Format) : BundleEnv :=
  { graph := g, packet := samplePacket files, format := fmt, scope := Scope.packet,
    appPreloadNonempty := false, loaderRaw := "LOADER", loaderMin := "MINLOADER",
    cachePath := "public" }

/-- A plain root entry. -/
def rootEntryMod : Module := { sampleModule "a.js" [] with isRootEntry := true }

/-- Shape of a successful `obtain` that actually rebuilt (etag miss). -/
theorem obtain_rebuild {env : BundleEnv} {st : BundleState} {opts : ObtainOpts}
    {r : ObtainResult} {st' : BundleState}
    (hmiss : ¬ st.etag = some (entriesGetter env st))
    (hok : obtain env st opts = .ok (r, st')) :
    ∃ mods done' mod,
      bundleIterate env.graph
        ⟨env.format, env.packet.id, env.packet.isolated, env.scope⟩
        env.packet.files (entriesGetter env st) = .ok (mods, done') ∧
      ((entriesGetter env st).head? >>= lookupFile env.graph env.packet.files) = some mod ∧
      r = { code := some (String.intercalate "\n" (obtainChunks env opts mod mods)),
            map := some (obtainChunks env opts mod mods) } ∧
      st' = { st with
              code := some (String.intercalate "\n" (obtainChunks env opts mod mods)),
              map := some (obtainChunks env opts mod mods),
              etag := some (entriesGetter env st), contenthash := none } := by
  simp only [obtain] at hok
  rw [if_neg hmiss] at hok
  split at hok
  · cases hok
  · rename_i mods done' hiter
    split at hok
    · split at hok <;> cases hok
    · rename_i mod hmod
      simp only [Except.ok.injEq, Prod.mk.injEq] at hok
      obtain ⟨h1, h2⟩ := hok
      exact ⟨mods, done', mod, hiter, hmod, h1.symm, h2.symm⟩

/-- C1 (amended): whenever `obtain` actually rebuilds (its etag cache does
not match the current entries) and the first entry id is absent from
`packet.files`, `obtain` fails fatally regardless of the bundle format:
the iterator throws `unparsed entry` for `.js` and `.css` alike, so a
missing CSS entry yields an error, not an empty result. -/
theorem C1_missing_entry_fatal (env : BundleEnv) (st : BundleState) (opts : ObtainOpts)
    (n : String)
    (hmiss : ¬ st.etag = some (entriesGetter env st))
    (hhead : (entriesGetter env st).head? = some n)
    (hnone : lookupFile env.graph env.packet.files n = none) :
    obtain env st opts = .error (.iter (.unparsedEntry n)) := by
  obtain ⟨tl, htl⟩ : ∃ tl, entriesGetter env st = n :: tl := by
    cases hes : entriesGetter env st with
    | nil => rw [hes] at hhead; cases hhead
    | cons a tl =>
      rw [hes] at hhead
      simp only [List.head?_cons, Option.some.injEq] at hhead
      exact ⟨tl, by rw [hhead]⟩
  simp only [obtain]
  rw [if_neg hmiss, htl]
  simp [bundleIterate, bundleEntries, hnone]

/-- C1, counterexample: a `.css` bundle whose sole entry is missing from
`packet.files` errors out of `obtain` (the iterator throws
`unparsed entry`) instead of producing an empty result. -/
theorem C1_counterexample :
    obtain (sampleEnv [] [] Format.css) (mkBundleState (some ["a.css"])) defaultOpts =
      .error (.iter (.unparsedEntry "a.css")) ∧
    (sampleEnv [] [] Format.css).format = Format.css :=
  ⟨rfl, rfl⟩

theorem C1_witness :
    obtain (sampleEnv [] [] Format.js) (mkBundleState (some ["b.js"])) defaultOpts =
      .error (.iter (.unparsedEntry "b.js")) :=
  C1_missing_entry_fatal _ _ _ "b.js" (by decide) rfl rfl

/-- C2 (amended): for a rebuilding `.js` obtain whose first entry resolves
to `mod`, the runtime loader source is prepended and a trailing
`porter["import"](<id>)` appended exactly when `mod.isRootEntry` and the
`loader` option is not `false` — the entry's `isPreload` flag plays no
part (it only gates the separate lock-snapshot chunk). -/
theorem C2_loader_condition (env : BundleEnv) (st : BundleState) (opts : ObtainOpts)
    (r : ObtainResult) (st' : BundleState)
    (hfmt : env.format = Format.js)
    (hmiss : ¬ st.etag = some (entriesGetter env st))
    (hok : obtain env st opts = .ok (r, st')) :
    ∃ mod mods,
      ((entriesGetter env st).head? >>= lookupFile env.graph env.packet.files) = some mod ∧
      r.code = some (String.intercalate "\n" (obtainChunks env opts mod mods)) ∧
      ((mod.isRootEntry = true ∧ opts.loader ≠ some false) →
        obtainChunks env opts mod mods =
          loaderLine env opts ::
            ((if mod.isRootEntry ∧ ¬ mod.isPreload ∧ env.format = Format.js then
                [lockLine env mod] else []) ++
             modChunks mods opts.minify ++ [importLine mod])) ∧
      (¬ (mod.isRootEntry = true ∧ opts.loader ≠ some false) →
        obtainChunks env opts mod mods =
          (if mod.isRootEntry ∧ ¬ mod.isPreload ∧ env.format = Format.js then
            [lockLine env mod] else []) ++
          modChunks mods opts.minify) := by
  obtain ⟨mods, done', mod, hiter, hmod, hr, hst⟩ := obtain_rebuild hmiss hok
  refine ⟨mod, mods, hmod, by rw [hr], ?_, ?_⟩
  · rintro ⟨hroot, hloader⟩
    have hcond : mod.isRootEntry = true ∧ ¬ opts.loader = some false ∧
        env.format = Format.js := ⟨hroot, hloader, hfmt⟩
    simp only [obtainChunks, if_pos hcond]
    simp
  · intro hnot
    have hcond : ¬ (mod.isRootEntry = true ∧ ¬ opts.loader = some false ∧
        env.format = Format.js) := by
      rintro ⟨h1, h2, h3⟩
      exact hnot ⟨h1, h2⟩
    simp only [obtainChunks, if_neg hcond]
    simp

/-- C2, counterexample: a root entry that is also a preload entry still
gets the loader prepended and the import call appended when
`loader !== false` — the condition at bundle.js line 292 does not test
`isPreload`, contrary to the claim. -/
theorem C2_counterexample :
    (obtain
      (sampleEnv [{ sampleModule "a.js" [] with isRootEntry := true, isPreload := true }]
        [("a.js", 0)] Format.js)
      (mkBundleState (some ["a.js"])) defaultOpts).map (fun p => p.1.code) =
      .ok (some "LOADER\ndefine(\"a.js\")\nporter[\"import\"](\"a.js\")") ∧
    ({ sampleModule "a.js" [] with isRootEntry := true, isPreload := true }).isPreload
      = true ∧
    (sampleEnv [{ sampleModule "a.js" [] with isRootEntry := true, isPreload := true }]
      [("a.js", 0)] Format.js).loaderRaw = "LOADER" :=
  ⟨rfl, rfl, rfl⟩

/-- The concrete surroundings used by the C2 witness. -/
def c2Env : BundleEnv := sampleEnv [rootEntryMod] [("a.js", 0)] Format.js

def c2Res : ObtainResult :=
  { code := some "LOADER\nObject.assign(porter.lock, {})\ndefine(\"a.js\")\nporter[\"import\"](\"a.js\")",
    map := some ["LOADER", "Object.assign(porter.lock, {})", "define(\"a.js\")",
      "porter[\"import\"](\"a.js\")"] }

def c2St : BundleState :=
  { entries := some ["a.js"], code := c2Res.code, map := c2Res.map,
    etag := some ["a.js"], contenthash := none }

theorem C2_witness :
    ∃ mod mods,
      ((entriesGetter c2Env (mkBundleState (some ["a.js"]))).head? >>=
        lookupFile c2Env.graph c2Env.packet.files) = some mod ∧
      c2Res.code = some (String.intercalate "\n" (obtainChunks c2Env defaultOpts mod mods)) ∧
      ((mod.isRootEntry = true ∧ defaultOpts.loader ≠ some false) →
        obtainChunks c2Env defaultOpts mod mods =
          loaderLine c2Env defaultOpts ::
            ((if mod.isRootEntry ∧ ¬ mod.isPreload ∧ c2Env.format = Format.js then
                [lockLine c2Env mod] else []) ++
             modChunks mods defaultOpts.minify ++ [importLine mod])) ∧
      (¬ (mod.isRootEntry = true ∧ defaultOpts.loader ≠ some false) →
        obtainChunks c2Env defaultOpts mod mods =
          (if mod.isRootEntry ∧ ¬ mod.isPreload ∧ c2Env.format = Format.js then
            [lockLine c2Env mod] else []) ++
          modChunks mods defaultOpts.minify) :=
  C2_loader_condition c2Env (mkBundleState (some ["a.js"])) defaultOpts c2Res c2St
    rfl (by decide) (by rfl)

end Porter

namespace Porter

/-- C5 (amended): after a successful `obtain` that actually rebuilt (etag
miss) and produced nonempty code `c`, the `contenthash` getter yields the
first 8 hex characters of the md5 of `c`, the `output` getter yields the
entry id with its extension replaced by `.<contenthash><format>`, and
`outputPath` carries the `<name>/<version>/` prefix exactly when the
packet has a parent.  (For empty produced code the getters return `''`
instead, see the counterexample.) -/
theorem C5_output_identity (md5hex : String → String) (env : BundleEnv)
    (st : BundleState) (opts : ObtainOpts) (r : ObtainResult) (st' : BundleState)
    (c : String)
    (hmiss : ¬ st.etag = some (entriesGetter env st))
    (hok : obtain env st opts = .ok (r, st'))
    (hc : r.code = some c) (hne : c.isEmpty = false) :
    ∃ entry, entryGetter env st' = some entry ∧
      (contenthashGetter md5hex st').1 = (md5hex c).take 8 ∧
      outputGetter md5hex env st' =
        replaceRExt entry ("." ++ (md5hex c).take 8 ++ env.format.ext) ∧
      outputPathGetter md5hex env st' =
        (if env.packet.hasParent then
          pathJoin [env.packet.name, env.packet.version, outputGetter md5hex env st']
         else outputGetter md5hex env st') := by
  obtain ⟨mods, done', mod, hiter, hmod, hr, hst⟩ := obtain_rebuild hmiss hok
  have hcodeEq : c = String.intercalate "\n" (obtainChunks env opts mod mods) := by
    rw [hr] at hc
    simpa using hc.symm
  -- the resolved entries are nonempty: the first entry was looked up
  obtain ⟨n, hn⟩ : ∃ n, (entriesGetter env st).head? = some n := by
    cases hh : (entriesGetter env st).head? with
    | none => rw [hh] at hmod; cases hmod
    | some a => exact ⟨a, rfl⟩
  have hentries' : entriesGetter env st' = entriesGetter env st := by
    rw [hst]
    cases hse : st.entries <;> simp [entriesGetter, hse]
  have hnonnil : entriesGetter env st ≠ [] := by
    intro hcontra
    rw [hcontra] at hn
    cases hn
  -- the code stored in st' is c
  have hcode' : st'.code = some c := by
    rw [hst, hcodeEq]
  have hfalsy : codeFalsy st' = false := by
    rw [codeFalsy, hcode']
    exact hne
  have hhash : (contenthashGetter md5hex st').1 = (md5hex c).take 8 := by
    have hch : st'.contenthash = none := by rw [hst]
    rw [contenthashGetter, hfalsy]
    simp only [hch, Option.getD_none, hcode', Option.getD_some]
    rw [if_pos (show ("" : String).isEmpty = true from rfl)]
    simp
  -- the entry getter yields a value
  obtain ⟨entry, hentry⟩ : ∃ entry, entryGetter env st' = some entry := by
    have hst'entries : st'.entries = st.entries := by rw [hst]
    simp only [entryGetter]
    rw [hst'entries]
    cases hse : st.entries with
    | none => exact ⟨env.packet.main, rfl⟩
    | some es =>
      cases es with
      | nil =>
        exfalso
        apply hnonnil
        simp [entriesGetter, hse]
      | cons a tl =>
        by_cases hlen : (a :: tl).length = 1 ∨ ¬ env.packet.hasParent
        · refine ⟨a, ?_⟩
          show (if (a :: tl).length = 1 ∨ ¬ env.packet.hasParent then (a :: tl).head?
            else some env.packet.main) = some a
          rw [if_pos hlen]
          rfl
        · refine ⟨env.packet.main, ?_⟩
          show (if (a :: tl).length = 1 ∨ ¬ env.packet.hasParent then (a :: tl).head?
            else some env.packet.main) = some env.packet.main
          rw [if_neg hlen]
  refine ⟨entry, hentry, hhash, ?_, ?_⟩
  · rw [outputGetter]
    have hlen0 : ¬ ((entriesGetter env st').length = 0 ∨ codeFalsy st' = true) := by
      push_neg
      rw [hentries', hfalsy]
      constructor
      · intro hc0
        exact hnonnil (List.length_eq_zero.mp hc0)
      · simp
    rw [if_neg hlen0, hentry, hhash]
  · rw [outputPathGetter]

/-- C5, counterexample: a `.css` bundle whose entry yields no CSS modules
produces empty code; then `contenthash` is `''`, not the first 8 hex
characters of the md5 digest of the empty string. -/
theorem C5_counterexample :
    (obtain (sampleEnv [sampleModule "a.js" []] [("x.css", 0)] Format.css)
        (mkBundleState (some ["x.css"])) defaultOpts).map (fun p => p.1.code) =
      .ok (some "") ∧
    (contenthashGetter (fun _ => "d41d8cd98f00b204e9800998ecf8427e")
      { entries := some ["x.css"], code := some "", map := some [],
        etag := some ["x.css"], contenthash := none }).1 = "" ∧
    ((fun (_ : String) => "d41d8cd98f00b204e9800998ecf8427e") "").take 8 = "d41d8cd9" ∧
    ("" : String) ≠ "d41d8cd9" :=
  ⟨rfl, rfl, rfl, by decide⟩

theorem C5_witness :
    ∃ entry,
      entryGetter c2Env c2St = some entry ∧
      (contenthashGetter (fun _ => "0123456789abcdef0123456789abcdef") c2St).1 =
        ((fun (_ : String) => "0123456789abcdef0123456789abcdef")
          ("LOADER\nObject.assign(porter.lock, {})\ndefine(\"a.js\")\nporter[\"import\"](\"a.js\")")).take 8 ∧
      outputGetter (fun _ => "0123456789abcdef0123456789abcdef") c2Env c2St =
        replaceRExt entry ("." ++
          ((fun (_ : String) => "0123456789abcdef0123456789abcdef")
            ("LOADER\nObject.assign(porter.lock, {})\ndefine(\"a.js\")\nporter[\"import\"](\"a.js\")")).take 8 ++
          c2Env.format.ext) ∧
      outputPathGetter (fun _ => "0123456789abcdef0123456789abcdef") c2Env c2St =
        (if c2Env.packet.hasParent then
          pathJoin [c2Env.packet.name, c2Env.packet.version,
            outputGetter (fun _ => "0123456789abcdef0123456789abcdef") c2Env c2St]
         else outputGetter (fun _ => "0123456789abcdef0123456789abcdef") c2Env c2St) :=
  C5_output_identity (fun _ => "0123456789abcdef0123456789abcdef") c2Env
    (mkBundleState (some ["a.js"])) defaultOpts c2Res c2St
    "LOADER\nObject.assign(porter.lock, {})\ndefine(\"a.js\")\nporter[\"import\"](\"a.js\")"
    (by decide) (by rfl) rfl rfl

/-- C6: `obtain` is deterministic and stable: a second call on the state a
successful call produced returns the very same `{code, map}` and leaves
the state untouched (the second call hits the etag cache), so `code` is
byte-identical and the `contenthash` getter — a function of that state —
yields an equal hash. -/
theorem C6_obtain_deterministic (env : BundleEnv) (st : BundleState) (opts : ObtainOpts)
    (r : ObtainResult) (st' : BundleState)
    (hok : obtain env st opts = .ok (r, st')) :
    obtain env st' opts = .ok (r, st') := by
  by_cases hhit : st.etag = some (entriesGetter env st)
  · have h0 : obtain env st opts = .ok ({ code := st.code, map := st.map }, st) := by
      rw [obtain, if_pos hhit]
    rw [h0] at hok
    simp only [Except.ok.injEq, Prod.mk.injEq] at hok
    obtain ⟨h1, h2⟩ := hok
    subst h2
    rw [obtain, if_pos hhit, h1]
  · obtain ⟨mods, done', mod, hiter, hmod, hr, hst⟩ := obtain_rebuild hhit hok
    have hentries' : entriesGetter env st' = entriesGetter env st := by
      rw [hst]
      cases hse : st.entries <;> simp [entriesGetter, hse]
    have hhit' : st'.etag = some (entriesGetter env st') := by
      rw [hentries', hst]
    rw [obtain, if_pos hhit']
    have hcode : st'.code = r.code := by rw [hst, hr]
    have hmap : st'.map = r.map := by rw [hst, hr]
    rw [hcode, hmap]

theorem C6_witness :
    obtain c2Env c2St defaultOpts = .ok (c2Res, c2St) :=
  C6_obtain_deterministic c2Env (mkBundleState (some ["a.js"])) defaultOpts c2Res c2St
    (by rfl)

end Porter

namespace Porter

/-- Debounce kernel: while a pending timer's deadline lies strictly ahead
of the next call, the call cancels and reschedules, so only the final
timer fires. -/
theorem debounce_collapse_aux :
    ∀ rest t, List.Chain (fun a b => a ≤ b ∧ b < a + 100) t rest →
      debounceFires rest (some (t + 100)) =
        [(t :: rest).getLast (List.cons_ne_nil t rest) + 100] := by
  intro rest
  induction rest with
  | nil => intro t _; rfl
  | cons r rest ih =>
    intro t hchain
    cases hchain with
    | cons hpair hchain' =>
      have hlt : ¬ (t + 100 ≤ r) := by omega
      show (if t + 100 ≤ r then _ else _) = _
      rw [if_neg hlt, ih r hchain']
      rfl

/-- C7: reload calls arriving within a 100 ms window (each before the
previous call's deadline) collapse into a single `_reload` execution, at
100 ms after the last call; and when the bundle has a stale output file,
`_reload` unlinks it under the cache directory and runs `obtain` on the
state with `code`, `map`, `etag` and `contenthash` all cleared. -/
theorem C7_reload_debounce (t : Nat) (rest : List Nat)
    (hchain : List.Chain (fun a b => a ≤ b ∧ b < a + 100) t rest)
    (md5hex : String → String) (env : BundleEnv) (st : BundleState)
    (hout : (outputPathGetter md5hex env st).isEmpty = false) :
    debounceFires (t :: rest) none =
      [(t :: rest).getLast (List.cons_ne_nil t rest) + 100] ∧
    reloadOnce md5hex env st =
      some (pathJoin [env.cachePath, outputPathGetter md5hex env st],
        obtain env (clearBundle st) defaultOpts) ∧
    (clearBundle st).code = none ∧ (clearBundle st).map = none ∧
    (clearBundle st).etag = none ∧ (clearBundle st).contenthash = none := by
  refine ⟨debounce_collapse_aux rest t hchain, ?_, rfl, rfl, rfl, rfl⟩
  rw [reloadOnce, hout]
  simp

theorem C7_witness :
    debounceFires [0, 50, 90] none = [190] ∧
    reloadOnce (fun _ => "0123456789abcdef0123456789abcdef") c2Env c2St =
      some (pathJoin [c2Env.cachePath,
        outputPathGetter (fun _ => "0123456789abcdef0123456789abcdef") c2Env c2St],
        obtain c2Env (clearBundle c2St) defaultOpts) ∧
    (clearBundle c2St).code = none ∧ (clearBundle c2St).map = none ∧
    (clearBundle c2St).etag = none ∧ (clearBundle c2St).contenthash = none := by
  have h := C7_reload_debounce 0 [50, 90]
    (by constructor
        · exact ⟨by omega, by omega⟩
        · constructor
          · exact ⟨by omega, by omega⟩
          · exact List.Chain.nil)
    (fun _ => "0123456789abcdef0123456789abcdef") c2Env c2St (by decide)
  exact h

/-- C8 (amended): the `?main` response body is the loader source, a
`porter.config` call carrying the loader configuration, the module
content, and a trailing `porter["import"]` call naming the requested id
with its extension stripped (`id.replace(RE_EXT, '')`), in that order. -/
theorem C8_main_response (loaderSource loaderConfigJson id content : String) :
    formatMain loaderSource loaderConfigJson id content =
      (loaderSource ++ "\nporter.config(" ++ loaderConfigJson ++ ")\n") ++
      content ++
      ("\nporter[\"import\"](" ++ jsonString (stripExt id) ++ ")\n") := by
  rw [formatMain]
  simp [String.append_assoc]

/-- C8, counterexample: requesting `home.js?main` appends
`porter["import"]("home")` — the extension is stripped — so no
`porter["import"]("home.js")` naming the requested id appears in the
body. -/
theorem C8_counterexample :
    formatMain "L" "{}" "home.js" "C" =
      "L\nporter.config({})\nC\nporter[\"import\"](\"home\")\n" ∧
    ¬ ("porter[\"import\"](\"home.js\")".data <:+:
        (formatMain "L" "{}" "home.js" "C").data) :=
  ⟨rfl, by decide⟩

/-! ## C10: `Bundle.create` idempotence -/

theorem lookup_none_not_mem {l : List (String × Nat)} {k : String}
    (h : List.lookup k l = none) : k ∉ l.map Prod.fst := by
  induction l with
  | nil => simp
  | cons p rest ih =>
    obtain ⟨a, b⟩ := p
    simp only [List.lookup] at h
    split at h
    · cases h
    · rename_i hne
      simp only [List.map_cons, List.mem_cons]
      rintro (rfl | hmem)
      · simp at hne
      · exact ih h hmem

/-- C10: `Bundle.create` is idempotent per key: when a call returns a
bundle, a second call with the same packet and options returns the same
bundle object and leaves `packet.bundles` untouched; moreover a create
never replaces a bundle already present under any key, and uniqueness of
keys in the mapping is preserved. -/
theorem C10_create_idempotent (packet : Packet) (opts : CreateOpts) (st : CreateState)
    (b : Nat) (st' : CreateState)
    (h : createBundle packet opts st = .ok (b, st')) :
    createBundle packet opts st' = .ok (b, st') ∧
    (∀ k v, st.bundles.lookup k = some v → st'.bundles.lookup k = some v) ∧
    ((st.bundles.map Prod.fst).Nodup → (st'.bundles.map Prod.fst).Nodup) := by
  simp only [createBundle] at h ⊢
  split at h
  · cases h
  · rename_i key hkey
    split at h
    · rename_i b₀ hb₀
      simp only [Except.ok.injEq, Prod.mk.injEq] at h
      obtain ⟨h1, h2⟩ := h
      subst h1 h2
      rw [hb₀]
      exact ⟨rfl, fun k v hv => hv, fun hn => hn⟩
    · rename_i hb₀
      simp only [Except.ok.injEq, Prod.mk.injEq] at h
      obtain ⟨h1, h2⟩ := h
      subst h1
      rw [← h2]
      have hkmem : key ∉ st.bundles.map Prod.fst := lookup_none_not_mem hb₀
      refine ⟨?_, ?_, ?_⟩
      · have : List.lookup key ((key, st.nextId) :: st.bundles) = some st.nextId := by
          simp [List.lookup]
        rw [this]
      · intro k v hv
        have hkne : ¬ (k == key) = true := by
          intro hbeq
          have hk : k = key := by simpa using hbeq
          subst hk
          rw [hb₀] at hv
          cases hv
        simp [List.lookup, hkne]
        exact hv
      · intro hn
        simp only [List.map_cons]
        exact List.Nodup.cons hkmem hn
end Porter

namespace Porter

theorem C10_witness :
    createBundle (samplePacket []) { entries := some ["a.js"], format := none }
      { bundles := [("a.js", 0)], nextId := 1 } =
      .ok (0, { bundles := [("a.js", 0)], nextId := 1 }) ∧
    (∀ k v, List.lookup k ({ bundles := ([] : List (String × Nat)), nextId := 0 :
        CreateState }).bundles = some v →
      List.lookup k ({ bundles := [("a.js", 0)], nextId := 1 : CreateState }).bundles
        = some v) ∧
    ((List.map Prod.fst ({ bundles := ([] : List (String × Nat)), nextId := 0 :
        CreateState }).bundles).Nodup →
      (List.map Prod.fst ({ bundles := [("a.js", 0)], nextId := 1 :
        CreateState }).bundles).Nodup) :=
  C10_create_idempotent (samplePacket []) { entries := some ["a.js"], format := none }
    { bundles := [], nextId := 0 } 0 { bundles := [("a.js", 0)], nextId := 1 } (by rfl)

end Porter

namespace Porter

/-! ## C9: the dependency matcher

Modelled from the spec: the source of `lib/matchRequire` is not among the
sources (only its test is), so `findAll` is modelled from §4.1 of the
spec: it recognizes call-style `require("X")` and declaration-style
`import ... from "X"` (with and without bindings), and ignores
occurrences inside string literals, template literals, and comments (line
and block).  The scanner is a character automaton; the static
`"LIT" == "LIT"` condition gating of §4.1 — which only removes collected
specifiers — is not modelled, and neither are regex literals.  Besides
the collected specifiers the scanner reports the opaque regions (plain
strings, templates, comments) as half-open index intervals. -/

inductive MState
  | code (word : List Char)
  | slash (start : Nat)
  | req1
  | req2
  | imp
  | arg (q : Char) (start : Nat) (acc : List Char)
  | line (start : Nat)
  | block (start : Nat) (star : Bool)
  | str (q : Char) (start : Nat) (esc : Bool)
  | tpl (start : Nat) (esc : Bool)
  deriving DecidableEq, Repr

def isSpaceChar (c : Char) : Bool :=
  c = ' ' ∨ c = '\t' ∨ c = '\n' ∨ c = '\r'

def isQuote (c : Char) : Bool := c = '\'' ∨ c = '"'

/-- `"require"` reversed, as accumulated by the scanner. -/
def reqWord : List Char := ['e', 'r', 'i', 'u', 'q', 'e', 'r']

/-- `"import"` reversed. -/
def impWord : List Char := ['t', 'r', 'o', 'p', 'm', 'i']

/-- One character in code context: region openers first, then identifier
accumulation, then keyword completion at a word boundary. -/
def codeStep (word : List Char) (c : Char) (pos : Nat) : MState :=
  if c = '/' then .slash pos
  else if isQuote c then .str c pos false
  else if c = '`' then .tpl pos false
  else if isWordChar c then .code (c :: word)
  else if word = reqWord then
    (if c = '(' then .req2 else if isSpaceChar c then .req1 else .code [])
  else if word = impWord then
    (if isQuote c then .arg c (pos + 1) [] else .imp)
  else .code []

/-- The automaton step: possibly a collected `(position, specifier)`,
possibly a closed opaque `(start, stop)` interval, and the next state. -/
def step (st : MState) (c : Char) (pos : Nat) :
    Option (Nat × List Char) × Option (Nat × Nat) × MState :=
  match st with
  | .code word => (none, none, codeStep word c pos)
  | .slash start =>
    if c = '/' then (none, none, .line start)
    else if c = '*' then (none, none, .block start false)
    else (none, none, codeStep [] c pos)
  | .req1 =>
    if isSpaceChar c then (none, none, .req1)
    else if c = '(' then (none, none, .req2)
    else (none, none, codeStep [] c pos)
  | .req2 =>
    if isSpaceChar c then (none, none, .req2)
    else if isQuote c then (none, none, .arg c (pos + 1) [])
    else (none, none, codeStep [] c pos)
  | .imp =>
    if isQuote c ∨ c = '`' then (none, none, .arg c (pos + 1) [])
    else (none, none, .imp)
  | .arg q start acc =>
    if c = q then (some (start, acc.reverse), none, .code [])
    else (none, none, .arg q start (c :: acc))
  | .line start =>
    if c = '\n' then (none, some (start, pos), .code [])
    else (none, none, .line start)
  | .block start star =>
    if star ∧ c = '/' then (none, some (start, pos + 1), .code [])
    else (none, none, .block start (c = '*'))
  | .str q start esc =>
    if esc then (none, none, .str q start false)
    else if c = '\\' then (none, none, .str q start true)
    else if c = q then (none, some (start, pos + 1), .code [])
    else (none, none, .str q start false)
  | .tpl start esc =>
    if esc then (none, none, .tpl start false)
    else if c = '\\' then (none, none, .tpl start true)
    else if c = '`' then (none, some (start, pos + 1), .code [])
    else (none, none, .tpl start false)

/-- An opaque region still open at the end of input is closed there
(unbalanced quotes or comments must not break the scan). -/
def finalizeScan : MState → Nat → List (Nat × Nat)
  | .line start, pos => [(start, pos)]
  | .block start _, pos => [(start, pos)]
  | .str _ start _, pos => [(start, pos)]
  | .tpl start _, pos => [(start, pos)]
  | _, _ => []

def scanAux : List Char → Nat → MState → List (Nat × List Char) × List (Nat × Nat)
  | [], pos, st => ([], finalizeScan st pos)
  | c :: cs, pos, st =>
    let r := step st c pos
    let rec' := scanAux cs (pos + 1) r.2.2
    (r.1.toList ++ rec'.1, r.2.1.toList ++ rec'.2)

def scanSource (s : String) : List (Nat × List Char) × List (Nat × Nat) :=
  scanAux s.data 0 (.code [])

/-- `matchRequire.findAll`, modelled from the spec. -/
def findAll (s : String) : List String :=
  (scanSource s).1.map (fun pw => String.mk pw.2)

/-- The string/template/comment regions of `s`, as the scanner sees them. -/
def opaqueRegions (s : String) : List (Nat × Nat) := (scanSource s).2

end Porter

namespace Porter

/-- The leftmost index a scan continued from `(st, pos)` can still emit:
the current position, or the start of the currently open region or
specifier. -/
def estart : MState → Nat → Nat
  | .code _, pos => pos
  | .slash start, _ => start
  | .req1, pos => pos
  | .req2, pos => pos
  | .imp, pos => pos
  | .arg _ start _, _ => start
  | .line start, _ => start
  | .block start _, _ => start
  | .str _ start _, _ => start
  | .tpl start _, _ => start

/-- State invariant of the scanner at position `pos` of source `s`. -/
def StInv (s : List Char) (pos : Nat) : MState → Prop
  | .arg _ start acc => start + acc.length = pos ∧ acc.reverse ++ s.drop pos = s.drop start
  | .slash start => start ≤ pos
  | .line start => start ≤ pos
  | .block start _ => start ≤ pos
  | .str _ start _ => start ≤ pos
  | .tpl start _ => start ≤ pos
  | _ => True

theorem estart_le {s : List Char} {pos : Nat} {st : MState} (h : StInv s pos st) :
    estart st pos ≤ pos := by
  cases st <;> simp only [estart, StInv] at h ⊢ <;> omega

theorem codeStep_inv {s : List Char} {pos : Nat} {word : List Char} {c : Char} :
    StInv s (pos + 1) (codeStep word c pos) := by
  unfold codeStep
  repeat' split
  all_goals simp [StInv]

theorem codeStep_estart {pos : Nat} {word : List Char} {c : Char} :
    pos ≤ estart (codeStep word c pos) (pos + 1) := by
  unfold codeStep
  repeat' split
  all_goals simp [estart]

theorem step_facts {s : List Char} {pos : Nat} {st : MState} {c : Char}
    (hinv : StInv s pos st) (hdrop : s.drop pos = c :: s.drop (pos + 1)) :
    StInv s (pos + 1) (step st c pos).2.2 ∧
    estart st pos ≤ estart (step st c pos).2.2 (pos + 1) ∧
    (∀ p w, (step st c pos).1 = some (p, w) →
      p = estart st pos ∧ p + w.length = pos ∧ w ++ s.drop pos = s.drop p ∧
      (step st c pos).2.2 = .code [] ∧ (step st c pos).2.1 = none) ∧
    (∀ a b, (step st c pos).2.1 = some (a, b) →
      a = estart st pos ∧ b ≤ pos + 1 ∧ (step st c pos).2.2 = .code []) := by
  have hle : estart st pos ≤ pos := estart_le hinv
  cases st with
  | code word =>
    refine ⟨codeStep_inv, codeStep_estart, ?_, ?_⟩
    · intro p w h; simp [step] at h
    · intro a b h; simp [step] at h
  | slash start =>
    simp only [StInv] at hinv
    simp only [step]
    split
    · refine ⟨?_, ?_, ?_, ?_⟩
      · simp only [StInv]; omega
      · simp only [estart]; omega
      · intro p w h; simp at h
      · intro a b h; simp at h
    · split
      · refine ⟨?_, ?_, ?_, ?_⟩
        · simp only [StInv]; omega
        · simp only [estart]; omega
        · intro p w h; simp at h
        · intro a b h; simp at h
      · refine ⟨codeStep_inv, le_trans hle codeStep_estart, ?_, ?_⟩
        · intro p w h; simp at h
        · intro a b h; simp at h
  | req1 =>
    simp only [step]
    split
    · refine ⟨trivial, ?_, ?_, ?_⟩
      · simp only [estart]; omega
      · intro p w h; simp at h
      · intro a b h; simp at h
    · split
      · refine ⟨trivial, ?_, ?_, ?_⟩
        · simp only [estart]; omega
        · intro p w h; simp at h
        · intro a b h; simp at h
      · refine ⟨codeStep_inv, le_trans hle codeStep_estart, ?_, ?_⟩
        · intro p w h; simp at h
        · intro a b h; simp at h
  | req2 =>
    simp only [step]
    split
    · refine ⟨trivial, ?_, ?_, ?_⟩
      · simp only [estart]; omega
      · intro p w h; simp at h
      · intro a b h; simp at h
    · split
      · refine ⟨?_, ?_, ?_, ?_⟩
        · simp [StInv]
        · simp only [estart]; omega
        · intro p w h; simp at h
        · intro a b h; simp at h
      · refine ⟨codeStep_inv, le_trans hle codeStep_estart, ?_, ?_⟩
        · intro p w h; simp at h
        · intro a b h; simp at h
  | imp =>
    simp only [step]
    split
    · refine ⟨?_, ?_, ?_, ?_⟩
      · simp [StInv]
      · simp only [estart]; omega
      · intro p w h; simp at h
      · intro a b h; simp at h
    · refine ⟨trivial, ?_, ?_, ?_⟩
      · simp only [estart]; omega
      · intro p w h; simp at h
      · intro a b h; simp at h
  | arg q start acc =>
    obtain ⟨hlen, hacc⟩ := hinv
    simp only [step]
    split
    · refine ⟨trivial, ?_, ?_, ?_⟩
      · simp only [estart]; omega
      · intro p w h
        simp only [Option.some.injEq, Prod.mk.injEq] at h
        obtain ⟨h1, h2⟩ := h
        subst h1 h2
        refine ⟨rfl, ?_, ?_, rfl, rfl⟩
        · simpa using hlen
        · exact hacc
      · intro a b h; simp at h
    · refine ⟨?_, ?_, ?_, ?_⟩
      · refine ⟨by simp; omega, ?_⟩
        show (c :: acc).reverse ++ s.drop (pos + 1) = s.drop start
        rw [List.reverse_cons, List.append_assoc]
        simpa [hdrop] using hacc
      · simp only [estart]; omega
      · intro p w h; simp at h
      · intro a b h; simp at h
  | line start =>
    simp only [StInv] at hinv
    simp only [step]
    split
    · refine ⟨trivial, ?_, ?_, ?_⟩
      · simp only [estart]; omega
      · intro p w h; simp at h
      · intro a b h
        simp only [Option.some.injEq, Prod.mk.injEq] at h
        obtain ⟨h1, h2⟩ := h
        subst h1 h2
        exact ⟨rfl, by omega, rfl⟩
    · refine ⟨?_, ?_, ?_, ?_⟩
      · simp only [StInv]; omega
      · simp only [estart]; omega
      · intro p w h; simp at h
      · intro a b h; simp at h
  | block start star =>
    simp only [StInv] at hinv
    simp only [step]
    split
    · refine ⟨trivial, ?_, ?_, ?_⟩
      · simp only [estart]; omega
      · intro p w h; simp at h
      · intro a b h
        simp only [Option.some.injEq, Prod.mk.injEq] at h
        obtain ⟨h1, h2⟩ := h
        subst h1 h2
        exact ⟨rfl, by omega, rfl⟩
    · refine ⟨?_, ?_, ?_, ?_⟩
      · simp only [StInv]; omega
      · simp only [estart]; omega
      · intro p w h; simp at h
      · intro a b h; simp at h
  | str q start esc =>
    simp only [StInv] at hinv
    simp only [step]
    split
    · refine ⟨?_, ?_, ?_, ?_⟩
      · simp only [StInv]; omega
      · simp only [estart]; omega
      · intro p w h; simp at h
      · intro a b h; simp at h
    · split
      · refine ⟨?_, ?_, ?_, ?_⟩
        · simp only [StInv]; omega
        · simp only [estart]; omega
        · intro p w h; simp at h
        · intro a b h; simp at h
      · split
        · refine ⟨trivial, ?_, ?_, ?_⟩
          · simp only [estart]; omega
          · intro p w h; simp at h
          · intro a b h
            simp only [Option.some.injEq, Prod.mk.injEq] at h
            obtain ⟨h1, h2⟩ := h
            subst h1 h2
            exact ⟨rfl, by omega, rfl⟩
        · refine ⟨?_, ?_, ?_, ?_⟩
          · simp only [StInv]; omega
          · simp only [estart]; omega
          · intro p w h; simp at h
          · intro a b h; simp at h
  | tpl start esc =>
    simp only [StInv] at hinv
    simp only [step]
    split
    · refine ⟨?_, ?_, ?_, ?_⟩
      · simp only [StInv]; omega
      · simp only [estart]; omega
      · intro p w h; simp at h
      · intro a b h; simp at h
    · split
      · refine ⟨?_, ?_, ?_, ?_⟩
        · simp only [StInv]; omega
        · simp only [estart]; omega
        · intro p w h; simp at h
        · intro a b h; simp at h
      · split
        · refine ⟨trivial, ?_, ?_, ?_⟩
          · simp only [estart]; omega
          · intro p w h; simp at h
          · intro a b h
            simp only [Option.some.injEq, Prod.mk.injEq] at h
            obtain ⟨h1, h2⟩ := h
            subst h1 h2
            exact ⟨rfl, by omega, rfl⟩
        · refine ⟨?_, ?_, ?_, ?_⟩
          · simp only [StInv]; omega
          · simp only [estart]; omega
          · intro p w h; simp at h
          · intro a b h; simp at h

end Porter

namespace Porter

theorem mem_toList_eq {α : Type} {a : α} {o : Option α} (h : a ∈ o.toList) :
    o = some a := by
  cases o with
  | none => simp at h
  | some x => simp at h; rw [h]

theorem scanAux_sound (s : List Char) :
    ∀ cs pos st, cs = s.drop pos → StInv s pos st →
      (∀ pw ∈ (scanAux cs pos st).1, estart st pos ≤ pw.1 ∧ pw.2 <+: s.drop pw.1) ∧
      (∀ iv ∈ (scanAux cs pos st).2, estart st pos ≤ iv.1) ∧
      (∀ pw ∈ (scanAux cs pos st).1, ∀ iv ∈ (scanAux cs pos st).2,
        iv.2 ≤ pw.1 ∨ pw.1 + pw.2.length ≤ iv.1) := by
  intro cs
  induction cs with
  | nil =>
    intro pos st hcs hinv
    refine ⟨?_, ?_, ?_⟩
    · intro pw hpw
      simp [scanAux] at hpw
    · intro iv hiv
      simp only [scanAux] at hiv
      cases st <;> simp only [finalizeScan] at hiv <;>
        first
          | exact absurd hiv (List.not_mem_nil iv)
          | (simp only [List.mem_singleton] at hiv
             rw [hiv]
             simp [estart])
    · intro pw hpw
      simp [scanAux] at hpw
  | cons c cs' ih =>
    intro pos st hcs hinv
    have hcs' : cs' = s.drop (pos + 1) := by
      rw [← List.tail_drop, ← hcs]
      rfl
    have hdrop : s.drop pos = c :: s.drop (pos + 1) := by
      rw [← hcs, hcs']
    obtain ⟨hinv', hmono, hcol, hivf⟩ := step_facts hinv hdrop
    obtain ⟨IH1, IH2, IH3⟩ := ih (pos + 1) (step st c pos).2.2 hcs' hinv'
    have hunf : scanAux (c :: cs') pos st =
        ((step st c pos).1.toList ++ (scanAux cs' (pos + 1) (step st c pos).2.2).1,
         (step st c pos).2.1.toList ++ (scanAux cs' (pos + 1) (step st c pos).2.2).2) := by
      simp [scanAux]
    rw [hunf]
    refine ⟨?_, ?_, ?_⟩
    · intro pw hpw
      rcases List.mem_append.mp hpw with hec | hrec
      · obtain ⟨heq1, heq2, heq3, heq4, heq5⟩ := hcol pw.1 pw.2 (by
          have := mem_toList_eq hec
          rwa [show ((pw.1, pw.2) : Nat × List Char) = pw from rfl])
        exact ⟨le_of_eq heq1.symm, ⟨s.drop pos, heq3⟩⟩
      · obtain ⟨h1, h2⟩ := IH1 pw hrec
        exact ⟨le_trans hmono h1, h2⟩
    · intro iv hiv
      rcases List.mem_append.mp hiv with hei | hrec
      · obtain ⟨heq1, heq2, heq3⟩ := hivf iv.1 iv.2 (by
          have := mem_toList_eq hei
          rwa [show ((iv.1, iv.2) : Nat × Nat) = iv from rfl])
        exact le_of_eq heq1.symm
      · exact le_trans hmono (IH2 iv hrec)
    · intro pw hpw iv hiv
      rcases List.mem_append.mp hpw with hec | hprec
      · obtain ⟨heq1, heq2, heq3, heq4, heq5⟩ := hcol pw.1 pw.2 (by
          have := mem_toList_eq hec
          rwa [show ((pw.1, pw.2) : Nat × List Char) = pw from rfl])
        rcases List.mem_append.mp hiv with hei | hirec
        · rw [heq5] at hei
          simp at hei
        · right
          have := IH2 iv hirec
          rw [heq4] at this
          simp only [estart] at this
          omega
      · rcases List.mem_append.mp hiv with hei | hirec
        · obtain ⟨heq1, heq2, heq3⟩ := hivf iv.1 iv.2 (by
            have := mem_toList_eq hei
            rwa [show ((iv.1, iv.2) : Nat × Nat) = iv from rfl])
          left
          have := (IH1 pw hprec).1
          rw [heq3] at this
          simp only [estart] at this
          omega
        · exact IH3 pw hprec iv hirec

/-- C9: every specifier `findAll` returns has an occurrence in the source
that is disjoint from every string-literal, template-literal and comment
region the scanner recognizes — it never returns a specifier whose only
occurrences lie inside those regions. -/
theorem C9_matcher_no_opaque_specifiers (s : String) :
    ∀ spec ∈ findAll s, ∃ p, spec.data <+: s.data.drop p ∧
      ∀ iv ∈ opaqueRegions s, iv.2 ≤ p ∨ p + spec.length ≤ iv.1 := by
  intro spec hspec
  obtain ⟨S1, S2, S3⟩ := scanAux_sound s.data s.data 0 (MState.code [])
    (List.drop_zero s.data).symm trivial
  simp only [findAll, scanSource, List.mem_map] at hspec
  obtain ⟨⟨p, w⟩, hmem, hmk⟩ := hspec
  refine ⟨p, ?_, ?_⟩
  · have h := (S1 (p, w) hmem).2
    rw [← hmk]
    exact h
  · intro iv hiv
    have h3 := S3 (p, w) hmem iv hiv
    rw [← hmk]
    exact h3

theorem C9_witness :
    "yen" ∈ findAll "import * as yen from 'yen' // require('x')" ∧
    ∃ p, ("yen" : String).data <+:
        ("import * as yen from 'yen' // require('x')" : String).data.drop p ∧
      ∀ iv ∈ opaqueRegions "import * as yen from 'yen' // require('x')",
        iv.2 ≤ p ∨ p + ("yen" : String).length ≤ iv.1 :=
  ⟨by decide,
    C9_matcher_no_opaque_specifiers "import * as yen from 'yen' // require('x')"
      "yen" (by decide)⟩

/-- The modelled matcher reproduces the `matchRequire` test expectations:
the import declarations are collected while occurrences inside a template
literal and inside a plain string are not. -/
theorem findAll_import_example :
    findAll "import * as yen from 'yen'\nimport traverse from 'babel-traverse'\n\nconst code = `\n  require('cropper')\n  import $ from 'jquery'\n`\n\nconst css = '@import \"cropper/dist/cropper.css\"'\n" =
      ["yen", "babel-traverse"] := rfl

/-- Specifiers inside string literals and line or block comments are not
collected, and adversarial unterminated comments do not break the scan. -/
theorem findAll_comment_example :
    findAll "// require('nope')\nrequire('yes')\n/* require('never')" = ["yes"] := rfl

end Porter
